import Mathlib

/-!
# Verification of the TuringStack demonstration scripts

A shallow embedding of the Python scripts of the TuringStack repository
(`fibonacci.py`, `stack_hello.py`, `stack_vs_queue.py`, `stack_overflow.py`)
together with proofs of the testable properties stated in the specification.

Conventions of the embedding:
* Python non-negative integers are modelled as `Nat` (all inputs of interest
  are naturals, and no arithmetic here overflows or goes negative).
* Printing is pure tracing in the scripts and is dropped from the value-level
  model; parameters that only influence printing (such as `depth` when it is
  only used for indentation) are kept whenever they also feed the recursion
  or a cache key.
* A Python `dict` used as an adjacency mapping is modelled as an association
  list `List (Nat × List Nat)` (graph nodes are coded as naturals).
* Loops whose termination depends on a data-structure invariant (the BFS and
  DFS worklist loops) are run with an explicit iteration bound (`fuel`) that
  is proved sufficient (`bfsLoop_queue_empties`, `dfsLoop_stack_empties`):
  with that bound the loop always reaches the empty-worklist state, exactly
  as the Python `while` loop does.
-/

namespace TuringStack

/-! ## fibonacci.py -/

/-- `fib_recursive_naive` from `fibonacci.py`: `if n <= 1: return n` and
otherwise `fib(n-1) + fib(n-2)`.  The `depth` parameter of the Python code
only controls print indentation and does not affect the returned value, so it
is dropped here. -/
def fib_recursive_naive : Nat → Nat
  | 0 => 0
  | 1 => 1
  | n + 2 => fib_recursive_naive (n + 1) + fib_recursive_naive n

/-- One pass of the `for i in range(2, n + 1)` loop body of `fib_iterative`:
`current = prev1 + prev2; prev2, prev1 = prev1, current`, iterated `k` times
on the state `(prev2, prev1)`. -/
def fibIterLoop : Nat → Nat × Nat → Nat × Nat
  | 0, p => p
  | k + 1, (prev2, prev1) => fibIterLoop k (prev1, prev1 + prev2)

/-- `fib_iterative` from `fibonacci.py`: returns `n` when `n <= 1`, otherwise
runs the loop for `i = 2 .. n` (that is, `n - 1` iterations) starting from
`prev2, prev1 = 0, 1` and returns `prev1`. -/
def fib_iterative (n : Nat) : Nat :=
  if n ≤ 1 then n
  else (fibIterLoop (n - 1) (0, 1)).2

/-- The cache of `@functools.lru_cache` on `fib_memoized`, keyed by the full
argument tuple `(n, depth)`. -/
abbrev FibCache := List ((Nat × Nat) × Nat)

/-- Dictionary lookup in the memoization cache. -/
def cacheLookup : FibCache → Nat × Nat → Option Nat
  | [], _ => none
  | (k, v) :: rest, q => if k = q then some v else cacheLookup rest q

/-- `fib_memoized` from `fibonacci.py` with the `lru_cache` state made
explicit: every call first consults the cache under the key `(n, depth)`;
on a miss the body runs (recursing at `(n-1, depth+1)` and `(n-2, depth+1)`,
threading the cache) and the result is stored. -/
def fibMemoAux : Nat → Nat → FibCache → Nat × FibCache
  | 0, depth, cache =>
    match cacheLookup cache (0, depth) with
    | some v => (v, cache)
    | none => (0, ((0, depth), 0) :: cache)
  | 1, depth, cache =>
    match cacheLookup cache (1, depth) with
    | some v => (v, cache)
    | none => (1, ((1, depth), 1) :: cache)
  | n + 2, depth, cache =>
    match cacheLookup cache (n + 2, depth) with
    | some v => (v, cache)
    | none =>
      let p1 := fibMemoAux (n + 1) (depth + 1) cache
      let p2 := fibMemoAux n (depth + 1) p1.2
      (p1.1 + p2.1, ((n + 2, depth), p1.1 + p2.1) :: p2.2)

/-- The value returned by `fib_memoized(n)` when called on a fresh cache (the
cache is empty at process start, and the demo calls `cache_clear()` before
timing). -/
def fib_memoized (n : Nat) : Nat := (fibMemoAux n 0 []).1

/-- The internal state `(a, b)` of `fib_generator` after `n` yields:
initially `a, b = 0, 1`, and after each yield `a, b = b, a + b`. -/
def fibGenPair : Nat → Nat × Nat
  | 0 => (0, 1)
  | n + 1 =>
    let p := fibGenPair n
    (p.2, p.1 + p.2)

/-- The `n`-th value (0-indexed) yielded by `fib_generator()`: the generator
yields `a` before updating the pair. -/
def fib_generator_nth (n : Nat) : Nat := (fibGenPair n).1

/-- `fib_counted` from `fibonacci.py` with the `wrapper.calls` counter of
`count_calls_decorator` made explicit: every invocation (including recursive
ones, which go through the decorated wrapper) first increments the counter,
then runs the body `n if n <= 1 else fib_counted(n-1) + fib_counted(n-2)`.
Returns `(result, counter)`. -/
def fibCountedAux : Nat → Nat → Nat × Nat
  | 0, calls => (0, calls + 1)
  | 1, calls => (1, calls + 1)
  | n + 2, calls =>
    let p1 := fibCountedAux (n + 1) (calls + 1)
    let p2 := fibCountedAux n p1.2
    (p1.1 + p2.1, p2.2)

/-- The value returned by `fib_counted(n)` (the counter does not influence
the returned value; it starts at `0` when the decorator runs). -/
def fib_counted (n : Nat) : Nat := (fibCountedAux n 0).1

/-! ## stack_hello.py and the list stack / deque queue of stack_vs_queue.py

A Python list used as a stack keeps its top at the *end* of the list
(`append` pushes at the end, `pop()` removes the last element); we model the
list in the same order. -/

/-- `stack.append(item)` on a Python list used as a stack. -/
def listPush (stack : List α) (item : α) : List α := stack ++ [item]

/-- Pushing a whole input sequence in order onto an initially given stack,
as the `for item in input_data: stack.append(item)` loop does. -/
def listPushAll (stack : List α) (items : List α) : List α :=
  items.foldl listPush stack

/-- One step of `while stack: item = stack.pop(); ...` — the sequence of
popped items, driven by an explicit iteration count (the loop runs exactly
`stack.length` times). -/
def listPopAllGo : Nat → List α → List α
  | 0, _ => []
  | fuel + 1, stack =>
    match stack.getLast? with
    | none => []
    | some item => item :: listPopAllGo fuel stack.dropLast

/-- The sequence of items produced by popping a Python list stack until it is
empty. -/
def listPopAll (stack : List α) : List α := listPopAllGo stack.length stack

/-- `queue.append(item)` on a `collections.deque` used as a FIFO queue: the
front of the deque is the head of the list, `append` adds at the end. -/
def dequeAppendAll (queue : List α) (items : List α) : List α :=
  items.foldl (fun q item => q ++ [item]) queue

/-- The sequence of items produced by `while queue: item = queue.popleft()`:
repeatedly removing the front element until the queue is empty. -/
def dequePopleftAll : List α → List α
  | [] => []
  | item :: rest => item :: dequePopleftAll rest

/-- The custom `Stack` class of `stack_hello.py`: `self.items` is a Python
list whose end is the top of the stack. -/
structure Stack (α : Type) where
  items : List α

/-- `Stack.push`: `self.items.append(item)`. -/
def Stack.push (s : Stack α) (item : α) : Stack α := ⟨s.items ++ [item]⟩

/-- `Stack.is_empty`: `len(self.items) == 0`. -/
def Stack.isEmpty (s : Stack α) : Bool := s.items.length == 0

/-- `Stack.pop`: returns `self.items.pop()` (the last element, removed) when
the stack is not empty, and `None` otherwise.  Modelled as the returned
`Option` value together with the stack after the call. -/
def Stack.pop (s : Stack α) : Option α × Stack α :=
  if s.isEmpty then (none, s)
  else (s.items.getLast?, ⟨s.items.dropLast⟩)

/-- `Stack.peek`: returns `self.items[-1]` when the stack is not empty and
`None` otherwise; the stack is not modified. -/
def Stack.peek (s : Stack α) : Option α :=
  if s.isEmpty then none else s.items.getLast?

/-- `Stack.size`: `len(self.items)`. -/
def Stack.size (s : Stack α) : Nat := s.items.length

/-- Pushing a whole message onto a `Stack` character by character, as the
`for char in message: stack.push(char)` loop of `stack_hello_explicit`. -/
def Stack.pushAll (s : Stack α) (items : List α) : Stack α :=
  items.foldl Stack.push s

/-- The sequence of items produced by the
`while not stack.is_empty(): char = stack.pop()` loop, driven by an explicit
iteration count (the loop runs exactly `size` times). -/
def stackPopAllGo : Nat → Stack α → List α
  | 0, _ => []
  | fuel + 1, s =>
    match s.pop with
    | (none, _) => []
    | (some item, s') => item :: stackPopAllGo fuel s'

/-- The sequence of items popped from a `Stack` until it is empty. -/
def stackPopAll (s : Stack α) : List α := stackPopAllGo s.size s

/-! ## stack_overflow.py -/

/-- The built-in recursion-depth error of the host language. -/
inductive RecursionError : Type where
  | limitExceeded : RecursionError
deriving DecidableEq

/-- `infinite_recursion` from `demonstrate_recursion_limit`.  The body is
`return infinite_recursion(depth + 1)`: a pure pass-through of the recursive
call.  Modelled from the spec: the host language's recursion-depth guard
raises a built-in `RecursionError` once the call depth exceeds the
interpreter's recursion limit; `remaining` is the number of further nested
calls the guard still allows from the current frame. -/
def infinite_recursion : Nat → Nat → Except RecursionError Nat
  | 0, _ => .error .limitExceeded
  | remaining + 1, depth => infinite_recursion remaining (depth + 1)

/-- `demonstrate_recursion_limit` from `stack_overflow.py`: calls
`infinite_recursion()` inside `try/except RecursionError`, printing the
caught error.  The result records whether the function finished normally
(no exception escaping). -/
def demonstrate_recursion_limit (remaining : Nat) : Except RecursionError Unit :=
  match infinite_recursion remaining 0 with
  | .error .limitExceeded => .ok ()
  | .ok _ => .ok ()

/-! ## Graph traversal: `bfs` and `dfs` from stack_vs_queue.py

The graph is a Python dict mapping a node to its successor list, modelled as
an association list over naturals. -/

/-- `graph[node]`: adjacency lookup.  On the graphs of the claims (whose
listed successors are all keys of the mapping) the lookup never misses; the
`[]` default is only there to make the model total. -/
def adj (graph : List (Nat × List Nat)) (node : Nat) : List Nat :=
  (graph.lookup node).getD []

/-- The keys of the adjacency mapping. -/
def keys (graph : List (Nat × List Nat)) : List Nat := graph.map Prod.fst

/-- Nodes reachable from `start` by a path of length at most `n`
(`ball n` = the closed ball of radius `n` in shortest-path distance). -/
def ball (graph : List (Nat × List Nat)) (start : Nat) : Nat → List Nat
  | 0 => [start]
  | n + 1 => ball graph start n ++ (ball graph start n).flatMap (adj graph)

/-- `v` lies at shortest-path distance exactly `n` from `start`: it is
reachable within `n` steps but not within fewer. -/
def hasDist (graph : List (Nat × List Nat)) (start v n : Nat) : Prop :=
  v ∈ ball graph start n ∧ ∀ m < n, v ∉ ball graph start m

instance (graph : List (Nat × List Nat)) (start v n : Nat) :
    Decidable (hasDist graph start v n) := by
  unfold hasDist; infer_instance

/-- The mutable state of the `bfs` loop: the `visited` set (as the list of
its insertions), the `queue` deque (front at the head) and the `order`
list. -/
structure BfsState where
  visited : List Nat
  queue : List Nat
  order : List Nat
deriving DecidableEq

/-- The `while queue:` loop of `bfs`: pop the front node; if unvisited, mark
it, append it to the order and extend the queue with its successors, else
drop it.  `fuel` bounds the number of iterations and is proved sufficient
below (`bfsLoop_queue_empties`). -/
def bfsLoop (graph : List (Nat × List Nat)) : Nat → BfsState → BfsState
  | 0, s => s
  | fuel + 1, s =>
    match s.queue with
    | [] => s
    | node :: rest =>
      if node ∈ s.visited then
        bfsLoop graph fuel ⟨s.visited, rest, s.order⟩
      else
        bfsLoop graph fuel ⟨node :: s.visited, rest ++ adj graph node, s.order ++ [node]⟩

/-- An upper bound on the number of iterations of the `bfs`/`dfs` worklist
loops: every enqueue is either the initial `start` or a successor of a newly
visited key, so the total number of pops is at most
`1 + Σ_{distinct keys k} |graph[k]|`. -/
def travFuel (graph : List (Nat × List Nat)) : Nat :=
  1 + ((keys graph).dedup.map (fun k => (adj graph k).length)).sum

/-- `bfs(graph, start)` from `stack_vs_queue.py`: the returned visit order. -/
def bfs (graph : List (Nat × List Nat)) (start : Nat) : List Nat :=
  (bfsLoop graph (travFuel graph) ⟨[], [start], []⟩).order

/-- The mutable state of the `dfs` loop: `visited`, the `stack` (in the
Python list the top is the *last* element; here the list is kept in reverse
so that the top is the head) and the `order` list. -/
structure DfsState where
  visited : List Nat
  stack : List Nat
  order : List Nat
deriving DecidableEq

/-- The `while stack:` loop of `dfs`: pop the top node; if unvisited, mark
it, append it to the order and push its successors.  In the Python code the
top of the stack is the end of the list and the push is
`stack.extend(reversed(graph[node]))`; with the stack held top-first the two
reversals cancel and the push is `adj graph node ++ rest`.  `fuel` bounds
the number of iterations and is proved sufficient below
(`dfsLoop_stack_empties`). -/
def dfsLoop (graph : List (Nat × List Nat)) : Nat → DfsState → DfsState
  | 0, s => s
  | fuel + 1, s =>
    match s.stack with
    | [] => s
    | node :: rest =>
      if node ∈ s.visited then
        dfsLoop graph fuel ⟨s.visited, rest, s.order⟩
      else
        dfsLoop graph fuel ⟨node :: s.visited, adj graph node ++ rest, s.order ++ [node]⟩

/-- `dfs(graph, start)` from `stack_vs_queue.py`: the returned visit order. -/
def dfs (graph : List (Nat × List Nat)) (start : Nat) : List Nat :=
  (dfsLoop graph (travFuel graph) ⟨[], [start], []⟩).order

/-- Reference definition following the spec's words (depth-first traversal
visits a full branch before backtracking): upon reaching an unvisited node,
mark and record it, then fully explore from each of its successors in listed
order — the whole branch through an earlier successor is finished before the
next successor is considered.  The state is `(visited, order)`; `fuel`
bounds the recursion depth and is proved sufficient below. -/
def dfsVisit (graph : List (Nat × List Nat)) :
    Nat → List Nat × List Nat → Nat → List Nat × List Nat
  | 0, s, _ => s
  | fuel + 1, s, u =>
    if u ∈ s.1 then s
    else (adj graph u).foldl (dfsVisit graph fuel) (u :: s.1, s.2 ++ [u])

/-- A recursion-depth bound for `dfsVisit`: each nested visit consumes an
unvisited key. -/
def dfsVisitFuel (graph : List (Nat × List Nat)) : Nat :=
  ((keys graph).dedup.map (fun k => 1 + (adj graph k).length)).sum + 1

/-- The depth-first visit order described by the spec, computed recursively. -/
def dfs_recursive (graph : List (Nat × List Nat)) (start : Nat) : List Nat :=
  (dfsVisit graph (dfsVisitFuel graph) ([], []) start).2

/-- The termination measure of the worklist loops: worklist size plus the
total successor count of the still-unvisited keys.  Each loop iteration
decreases it by exactly one. -/
def travMeasure (graph : List (Nat × List Nat)) (visited worklist : List Nat) : Nat :=
  worklist.length +
    (((keys graph).dedup.filter (fun k => k ∉ visited)).map
      (fun k => (adj graph k).length)).sum

/-- The analogous measure for the recursive `dfsVisit`, counting only the
unvisited keys (each visit of a key consumes its `1 + |graph[k]|` budget). -/
def visitMeasure (graph : List (Nat × List Nat)) (visited : List Nat) : Nat :=
  (((keys graph).dedup.filter (fun k => k ∉ visited)).map
    (fun k => 1 + (adj graph k).length)).sum + 1

/-- Running the `dfs` loop to completion from an arbitrary state: the measure
bounds the number of remaining iterations, so this much fuel always reaches
the empty-stack state. -/
def dfsExec (graph : List (Nat × List Nat))
    (visited worklist order : List Nat) : DfsState :=
  dfsLoop graph (travMeasure graph visited worklist) ⟨visited, worklist, order⟩

/-! ## Specification-side predicates -/

/-- Every value stored in the memoization cache is the Fibonacci number of
the first component of its key. -/
def goodCache (c : FibCache) : Prop :=
  ∀ k d v, cacheLookup c (k, d) = some v → v = fib_recursive_naive k

/-- `a` is at most as far from `start` as `b` (stated through the exact
distances, so that it is meaningful exactly when both are reachable). -/
def distOrderRel (graph : List (Nat × List Nat)) (start : Nat) (a b : Nat) : Prop :=
  ∀ na nb, hasDist graph start a na → hasDist graph start b nb → na ≤ nb

/-- The loop invariant of `bfs`.  `lq` is the queue together with a label for
each entry: the length of the path along which the entry was enqueued.
Labels are reachability bounds (`hball`), non-decreasing and within a window
of one (`hsort`); the emitted order is sorted by distance (`horder`) and
lies at distances no larger than any label (`hlink`); `visited` and `order`
hold the same nodes (`hvis`); and every unvisited reachable node is either
in the queue with its exact distance as label, or reached through a parent
that is itself still unvisited (`hfront`). -/
structure BfsInv (graph : List (Nat × List Nat)) (start : Nat)
    (s : BfsState) (lq : List (Nat × Nat)) : Prop where
  hmap : lq.map Prod.fst = s.queue
  hball : ∀ p ∈ lq, p.1 ∈ ball graph start p.2
  hsort : lq.Pairwise (fun a b => a.2 ≤ b.2 ∧ b.2 ≤ a.2 + 1)
  horder : s.order.Pairwise (distOrderRel graph start)
  hlink : ∀ a ∈ s.order, ∀ na, hasDist graph start a na → ∀ p ∈ lq, na ≤ p.2
  hvis : ∀ x, x ∈ s.visited ↔ x ∈ s.order
  hfront : ∀ w n, hasDist graph start w n → w ∉ s.visited →
      (w, n) ∈ lq ∨
      ∃ p m, w ∈ adj graph p ∧ hasDist graph start p m ∧ n = m + 1 ∧ p ∉ s.visited

/-! ## Lemmas about the Fibonacci implementations -/

theorem fib_recursive_naive_add_two (n : Nat) :
    fib_recursive_naive (n + 2) = fib_recursive_naive (n + 1) + fib_recursive_naive n :=
  rfl

theorem fibIterLoop_spec (k m : Nat) :
    fibIterLoop k (fib_recursive_naive m, fib_recursive_naive (m + 1)) =
      (fib_recursive_naive (m + k), fib_recursive_naive (m + k + 1)) := by
  induction k generalizing m with
  | zero => simp [fibIterLoop]
  | succ k ih =>
    have hstep : fib_recursive_naive (m + 1) + fib_recursive_naive m =
        fib_recursive_naive (m + 2) := rfl
    calc fibIterLoop (k + 1) (fib_recursive_naive m, fib_recursive_naive (m + 1))
        = fibIterLoop k (fib_recursive_naive (m + 1), fib_recursive_naive (m + 2)) := by
          simp [fibIterLoop, hstep]
      _ = (fib_recursive_naive (m + 1 + k), fib_recursive_naive (m + 1 + k + 1)) := ih (m + 1)
      _ = (fib_recursive_naive (m + (k + 1)), fib_recursive_naive (m + (k + 1) + 1)) := by
          congr 2 <;> omega

theorem fib_iterative_eq_naive (n : Nat) : fib_iterative n = fib_recursive_naive n := by
  match n with
  | 0 => rfl
  | 1 => rfl
  | m + 2 =>
    have h := fibIterLoop_spec (m + 1) 0
    simp only [Nat.zero_add] at h
    have h2 : fib_iterative (m + 2) = (fibIterLoop (m + 1) (0, 1)).2 := by
      simp [fib_iterative]
    rw [h2]
    have h01 : (0, 1) = (fib_recursive_naive 0, fib_recursive_naive 1) := rfl
    rw [h01, h]

theorem goodCache_nil : goodCache [] := by
  intro k d v h
  simp [cacheLookup] at h

theorem goodCache_insert {c : FibCache} (hc : goodCache c) (k d : Nat) :
    goodCache (((k, d), fib_recursive_naive k) :: c) := by
  intro k' d' v' h
  simp only [cacheLookup] at h
  split at h
  · next heq =>
    obtain ⟨hk, hd⟩ := Prod.mk.injEq .. ▸ heq
    cases h
    rw [← hk]
  · exact hc k' d' v' h

theorem fibMemoAux_correct :
    ∀ n depth c, goodCache c →
      (fibMemoAux n depth c).1 = fib_recursive_naive n ∧
        goodCache (fibMemoAux n depth c).2 := by
  intro n
  induction n using Nat.strong_induction_on with
  | _ n ih =>
    intro depth c hc
    match n with
    | 0 =>
      simp only [fibMemoAux]
      cases hl : cacheLookup c (0, depth) with
      | none => exact ⟨rfl, goodCache_insert hc 0 depth⟩
      | some v => exact ⟨hc 0 depth v hl, hc⟩
    | 1 =>
      simp only [fibMemoAux]
      cases hl : cacheLookup c (1, depth) with
      | none => exact ⟨rfl, goodCache_insert hc 1 depth⟩
      | some v => exact ⟨hc 1 depth v hl, hc⟩
    | m + 2 =>
      simp only [fibMemoAux]
      cases hl : cacheLookup c (m + 2, depth) with
      | some v => exact ⟨hc (m + 2) depth v hl, hc⟩
      | none =>
        have h1 := ih (m + 1) (by omega) (depth + 1) c hc
        have h2 := ih m (by omega) (depth + 1)
          (fibMemoAux (m + 1) (depth + 1) c).2 h1.2
        refine ⟨?_, ?_⟩
        · simp only [h1.1, h2.1, fib_recursive_naive_add_two]
        · have := goodCache_insert h2.2 (m + 2) depth
          simpa [h1.1, h2.1, fib_recursive_naive_add_two] using this

theorem fib_memoized_eq_naive (n : Nat) : fib_memoized n = fib_recursive_naive n :=
  (fibMemoAux_correct n 0 [] goodCache_nil).1

theorem fibCountedAux_fst :
    ∀ n calls, (fibCountedAux n calls).1 = fib_recursive_naive n := by
  intro n
  induction n using Nat.strong_induction_on with
  | _ n ih =>
    intro calls
    match n with
    | 0 => rfl
    | 1 => rfl
    | m + 2 =>
      simp only [fibCountedAux, fib_recursive_naive_add_two]
      rw [ih (m + 1) (by omega), ih m (by omega)]

theorem fib_counted_eq_naive (n : Nat) : fib_counted n = fib_recursive_naive n :=
  fibCountedAux_fst n 0

theorem fibGenPair_spec (n : Nat) :
    fibGenPair n = (fib_recursive_naive n, fib_recursive_naive (n + 1)) := by
  induction n with
  | zero => rfl
  | succ n ih =>
    simp only [fibGenPair, ih]
    have h2 : fib_recursive_naive (n + 1 + 1) =
        fib_recursive_naive (n + 1) + fib_recursive_naive n := rfl
    rw [h2, Nat.add_comm (fib_recursive_naive (n + 1))]

theorem fib_generator_nth_eq_naive (n : Nat) :
    fib_generator_nth n = fib_recursive_naive n := by
  simp [fib_generator_nth, fibGenPair_spec]

/-! ## Lemmas about the stack and queue models -/

theorem listPushAll_eq_append (s xs : List α) : listPushAll s xs = s ++ xs := by
  induction xs generalizing s with
  | nil => simp [listPushAll]
  | cons x xs ih =>
    have h : listPushAll s (x :: xs) = listPushAll (s ++ [x]) xs := rfl
    rw [h, ih]
    simp

theorem listPopAllGo_eq_reverse :
    ∀ fuel (l : List α), l.length ≤ fuel → listPopAllGo fuel l = l.reverse := by
  intro fuel
  induction fuel with
  | zero =>
    intro l h
    have hl : l = [] := List.eq_nil_of_length_eq_zero (Nat.le_zero.mp h)
    subst hl
    simp [listPopAllGo]
  | succ fuel ih =>
    intro l h
    rcases List.eq_nil_or_concat l with rfl | ⟨ys, y, rfl⟩
    · simp [listPopAllGo]
    · have hlen : ys.length ≤ fuel := by
        have h2 : ys.length + 1 ≤ fuel + 1 := by simpa using h
        omega
      simp [listPopAllGo, List.getLast?_concat, List.dropLast_concat, ih ys hlen]

theorem listPopAll_eq_reverse (l : List α) : listPopAll l = l.reverse :=
  listPopAllGo_eq_reverse l.length l le_rfl

theorem dequeAppendAll_eq_append (q xs : List α) : dequeAppendAll q xs = q ++ xs := by
  induction xs generalizing q with
  | nil => simp [dequeAppendAll]
  | cons x xs ih =>
    have h : dequeAppendAll q (x :: xs) = dequeAppendAll (q ++ [x]) xs := rfl
    rw [h, ih]
    simp

theorem dequePopleftAll_eq_self (l : List α) : dequePopleftAll l = l := by
  induction l with
  | nil => rfl
  | cons x xs ih => simp [dequePopleftAll, ih]

theorem Stack.pushAll_items (s : Stack α) (xs : List α) :
    (s.pushAll xs).items = s.items ++ xs := by
  induction xs generalizing s with
  | nil => simp [Stack.pushAll]
  | cons x xs ih =>
    have h : s.pushAll (x :: xs) = (s.push x).pushAll xs := rfl
    rw [h, ih]
    simp [Stack.push]

theorem stackPopAllGo_eq_listPopAllGo :
    ∀ fuel (s : Stack α), stackPopAllGo fuel s = listPopAllGo fuel s.items := by
  intro fuel
  induction fuel with
  | zero => intro s; rfl
  | succ fuel ih =>
    intro s
    rcases List.eq_nil_or_concat s.items with hnil | ⟨ys, y, hconc⟩
    · simp [stackPopAllGo, listPopAllGo, Stack.pop, Stack.isEmpty, hnil]
    · have hne : s.isEmpty = false := by
        simp [Stack.isEmpty, hconc]
      simp [stackPopAllGo, listPopAllGo, Stack.pop, hne, hconc,
        List.getLast?_concat, List.dropLast_concat, ih]

theorem stackPopAll_eq_reverse (s : Stack α) : stackPopAll s = s.items.reverse := by
  have h : stackPopAll s = listPopAllGo s.items.length s.items := by
    simp [stackPopAll, Stack.size, stackPopAllGo_eq_listPopAllGo]
  rw [h, listPopAllGo_eq_reverse s.items.length s.items le_rfl]

/-! ## Lemmas about the recursion-limit model -/

theorem infinite_recursion_never_returns :
    ∀ remaining depth, infinite_recursion remaining depth =
      Except.error RecursionError.limitExceeded := by
  intro remaining
  induction remaining with
  | zero => intro depth; rfl
  | succ remaining ih => intro depth; exact ih (depth + 1)

/-! ## Lemmas about shortest-path distance -/

theorem mem_ball_zero {g : List (Nat × List Nat)} {s v : Nat} :
    v ∈ ball g s 0 ↔ v = s := by
  simp [ball]

theorem hasDist_start (g : List (Nat × List Nat)) (s : Nat) : hasDist g s s 0 :=
  ⟨by simp [ball], by omega⟩

theorem ball_mono {g : List (Nat × List Nat)} {s : Nat} {m n : Nat} (h : m ≤ n) :
    ∀ v ∈ ball g s m, v ∈ ball g s n := by
  induction h with
  | refl => exact fun v hv => hv
  | step _ ih =>
    intro v hv
    have := ih v hv
    simp only [ball, List.mem_append]
    exact Or.inl this

theorem mem_ball_succ_of_adj {g : List (Nat × List Nat)} {s u v n : Nat}
    (hu : u ∈ ball g s n) (hv : v ∈ adj g u) : v ∈ ball g s (n + 1) := by
  simp only [ball, List.mem_append, List.mem_flatMap]
  exact Or.inr ⟨u, hu, hv⟩

theorem mem_ball_succ_elim {g : List (Nat × List Nat)} {s v n : Nat}
    (h : v ∈ ball g s (n + 1)) :
    v ∈ ball g s n ∨ ∃ u, u ∈ ball g s n ∧ v ∈ adj g u := by
  simpa only [ball, List.mem_append, List.mem_flatMap] using h

theorem hasDist_exists_of_mem_ball {g : List (Nat × List Nat)} {s v n : Nat}
    (h : v ∈ ball g s n) : ∃ m, m ≤ n ∧ hasDist g s v m := by
  have hex : ∃ m, v ∈ ball g s m := ⟨n, h⟩
  exact ⟨Nat.find hex, Nat.find_min' hex h, Nat.find_spec hex,
    fun m hm => Nat.find_min hex hm⟩

theorem hasDist_unique {g : List (Nat × List Nat)} {s v m n : Nat}
    (h1 : hasDist g s v m) (h2 : hasDist g s v n) : m = n := by
  rcases lt_trichotomy m n with h | h | h
  · exact absurd h1.1 (h2.2 m h)
  · exact h
  · exact absurd h2.1 (h1.2 n h)

theorem hasDist_parent {g : List (Nat × List Nat)} {s v n : Nat}
    (h : hasDist g s v (n + 1)) : ∃ p, v ∈ adj g p ∧ hasDist g s p n := by
  rcases mem_ball_succ_elim h.1 with hv | ⟨u, hu, hadj⟩
  · exact absurd hv (h.2 n (Nat.lt_succ_self n))
  · obtain ⟨m, hm, hdu⟩ := hasDist_exists_of_mem_ball hu
    rcases Nat.lt_or_ge m n with hlt | hge
    · have : v ∈ ball g s (m + 1) := mem_ball_succ_of_adj hdu.1 hadj
      exact absurd this (h.2 (m + 1) (by omega))
    · have hmn : m = n := le_antisymm hm hge
      exact ⟨u, hadj, hmn ▸ hdu⟩

theorem list_pairwise_of_forall {α : Type} {R : α → α → Prop} (h : ∀ a b, R a b) :
    ∀ l : List α, l.Pairwise R := by
  intro l
  induction l with
  | nil => exact List.Pairwise.nil
  | cons x xs ih => exact List.Pairwise.cons (fun b _ => h x b) ih

/-! ## The BFS invariant -/

/-- Every unvisited reachable node lies at distance at least the front label
of the queue: nearer nodes have all been visited already. -/
theorem bfsInv_unvisited_ge {g : List (Nat × List Nat)} {st : Nat} {s : BfsState}
    {hd : Nat × Nat} {tl : List (Nat × Nat)}
    (inv : BfsInv g st s (hd :: tl)) :
    ∀ n w, hasDist g st w n → w ∉ s.visited → hd.2 ≤ n := by
  intro n
  induction n using Nat.strong_induction_on with
  | _ n ih =>
    intro w hw hnv
    rcases inv.hfront w n hw hnv with hmem | ⟨p, m, _hadj, hp, hnm, hpv⟩
    · rcases List.mem_cons.mp hmem with heq | htl
      · subst heq
        exact le_rfl
      · exact ((List.pairwise_cons.mp inv.hsort).1 (w, n) htl).1
    · have := ih m (by omega) p hp hpv
      omega

/-- The invariant is preserved when the dequeued node was already visited. -/
theorem bfsInv_skip {g : List (Nat × List Nat)} {st : Nat} {V rest O : List Nat}
    {u : Nat} {lq : List (Nat × Nat)}
    (inv : BfsInv g st ⟨V, u :: rest, O⟩ lq) (hu : u ∈ V) :
    ∃ lq', BfsInv g st ⟨V, rest, O⟩ lq' := by
  obtain ⟨hd, tl, rfl⟩ : ∃ hd tl, lq = hd :: tl := by
    cases lq with
    | nil => exact absurd inv.hmap (by simp)
    | cons hd tl => exact ⟨hd, tl, rfl⟩
  have hmap : hd.1 :: tl.map Prod.fst = u :: rest := by
    have h0 : (hd :: tl).map Prod.fst = u :: rest := inv.hmap
    simpa using h0
  injection hmap with hhd1 htl
  refine ⟨tl, htl, ?_, ?_, inv.horder, ?_, inv.hvis, ?_⟩
  · exact fun p hp => inv.hball p (List.mem_cons_of_mem hd hp)
  · exact (List.pairwise_cons.mp inv.hsort).2
  · exact fun a ha na hna p hp => inv.hlink a ha na hna p (List.mem_cons_of_mem hd hp)
  · intro w n hw hnv
    rcases inv.hfront w n hw hnv with hmem | hpar
    · rcases List.mem_cons.mp hmem with heq | htl'
      · exfalso
        apply hnv
        have hwu : w = u := by rw [← hhd1, ← heq]
        rw [hwu]
        exact hu
      · exact Or.inl htl'
    · exact Or.inr hpar

/-- The invariant is preserved when a new node is visited: its queue entry is
dropped and its successors are enqueued with label one larger. -/
theorem bfsInv_visit {g : List (Nat × List Nat)} {st : Nat} {V rest O : List Nat}
    {u : Nat} {lq : List (Nat × Nat)}
    (inv : BfsInv g st ⟨V, u :: rest, O⟩ lq) (hu : u ∉ V) :
    ∃ lq', BfsInv g st ⟨u :: V, rest ++ adj g u, O ++ [u]⟩ lq' := by
  obtain ⟨hd, tl, rfl⟩ : ∃ hd tl, lq = hd :: tl := by
    cases lq with
    | nil => exact absurd inv.hmap (by simp)
    | cons hd tl => exact ⟨hd, tl, rfl⟩
  have hmap : hd.1 :: tl.map Prod.fst = u :: rest := by
    have h0 : (hd :: tl).map Prod.fst = u :: rest := inv.hmap
    simpa using h0
  injection hmap with hhd1 htl
  have hballu : u ∈ ball g st hd.2 := by
    have := inv.hball hd (List.mem_cons_self hd tl)
    rwa [hhd1] at this
  obtain ⟨m, hm, hdum⟩ := hasDist_exists_of_mem_ball hballu
  have hge : hd.2 ≤ m := bfsInv_unvisited_ge inv m u hdum hu
  have hmeq : m = hd.2 := le_antisymm hm hge
  have hdu : hasDist g st u hd.2 := hmeq ▸ hdum
  have hpc := List.pairwise_cons.mp inv.hsort
  refine ⟨tl ++ (adj g u).map (fun w => (w, hd.2 + 1)), ?_, ?_, ?_, ?_, ?_, ?_, ?_⟩
  · -- hmap
    simp only [List.map_append, List.map_map, htl]
    congr 1
    exact List.map_id' (adj g u)
  · -- hball
    intro p hp
    rcases List.mem_append.mp hp with hp1 | hp2
    · exact inv.hball p (List.mem_cons_of_mem hd hp1)
    · obtain ⟨w, hw, rfl⟩ := List.mem_map.mp hp2
      exact mem_ball_succ_of_adj hballu hw
  · -- hsort
    refine List.pairwise_append.mpr ⟨hpc.2, ?_, ?_⟩
    · exact List.pairwise_map.mpr
        (list_pairwise_of_forall (fun a b => ⟨le_rfl, Nat.le_succ _⟩) _)
    · intro a ha b hb
      obtain ⟨w, hw, rfl⟩ := List.mem_map.mp hb
      have hrel := hpc.1 a ha
      exact ⟨hrel.2, by omega⟩
  · -- horder
    refine List.pairwise_append.mpr ⟨inv.horder, List.pairwise_singleton .., ?_⟩
    intro a ha b hb
    have hbu : b = u := by simpa using hb
    subst hbu
    intro na nb hna hnb
    have hnb' : nb = hd.2 := hasDist_unique hnb hdu
    have := inv.hlink a ha na hna hd (List.mem_cons_self hd tl)
    omega
  · -- hlink
    intro a ha na hna p hp
    rcases List.mem_append.mp ha with haO | haU
    · rcases List.mem_append.mp hp with hp1 | hp2
      · exact inv.hlink a haO na hna p (List.mem_cons_of_mem hd hp1)
      · obtain ⟨w, hw, rfl⟩ := List.mem_map.mp hp2
        have := inv.hlink a haO na hna hd (List.mem_cons_self hd tl)
        exact Nat.le_succ_of_le this
    · have hau : a = u := by simpa using haU
      subst hau
      have hna' : na = hd.2 := hasDist_unique hna hdu
      rcases List.mem_append.mp hp with hp1 | hp2
      · have h1 : hd.2 ≤ p.2 := (hpc.1 p hp1).1
        omega
      · obtain ⟨w, hw, rfl⟩ := List.mem_map.mp hp2
        omega
  · -- hvis
    intro x
    have hx := inv.hvis x
    simp only [List.mem_cons, List.mem_append, List.mem_singleton]
    simp only [List.mem_cons] at hx
    tauto
  · -- hfront
    intro w n hw hnv
    have hwsplit : ¬(w = u ∨ w ∈ V) := by
      intro hor
      exact hnv (List.mem_cons.mpr hor)
    push_neg at hwsplit
    obtain ⟨hwu, hwV⟩ := hwsplit
    rcases inv.hfront w n hw hwV with hmem | ⟨p, pm, hadj, hpd, hnm, hpv⟩
    · rcases List.mem_cons.mp hmem with heq | htl'
      · exfalso
        apply hwu
        rw [← hhd1, ← heq]
      · exact Or.inl (List.mem_append_left _ htl')
    · by_cases hpu : p = u
      · subst hpu
        have hpm : pm = hd.2 := hasDist_unique hpd hdu
        refine Or.inl (List.mem_append_right _ ?_)
        refine List.mem_map.mpr ⟨w, hadj, ?_⟩
        rw [hnm, hpm]
      · refine Or.inr ⟨p, pm, hadj, hpd, hnm, ?_⟩
        simp [List.mem_cons, hpu, hpv]

/-- The invariant holds at the initial state of `bfs`. -/
theorem bfsInv_init (g : List (Nat × List Nat)) (st : Nat) :
    BfsInv g st ⟨[], [st], []⟩ [(st, 0)] := by
  refine ⟨rfl, ?_, ?_, ?_, ?_, ?_, ?_⟩
  · intro p hp
    have hp' : p = (st, 0) := by simpa using hp
    subst hp'
    simp [ball]
  · simp
  · simp
  · intro a ha na hna p hp
    simp at ha
  · intro x
    simp
  · intro w n hw _
    match n with
    | 0 =>
      left
      have hws : w = st := mem_ball_zero.mp hw.1
      subst hws
      simp
    | m + 1 =>
      right
      obtain ⟨p, hadj, hp⟩ := hasDist_parent hw
      exact ⟨p, m, hadj, hp, rfl, by simp⟩

/-- Through any number of loop iterations the emitted order stays sorted by
distance. -/
theorem bfsLoop_order_pairwise {g : List (Nat × List Nat)} {st : Nat} :
    ∀ fuel (s : BfsState) (lq : List (Nat × Nat)), BfsInv g st s lq →
      ((bfsLoop g fuel s).order).Pairwise (distOrderRel g st) := by
  intro fuel
  induction fuel with
  | zero => intro s lq inv; exact inv.horder
  | succ fuel ih =>
    intro s lq inv
    obtain ⟨V, Q, O⟩ := s
    cases Q with
    | nil => simpa [bfsLoop] using inv.horder
    | cons u rest =>
      by_cases hu : u ∈ V
      · have hstep : bfsLoop g (fuel + 1) ⟨V, u :: rest, O⟩ =
            bfsLoop g fuel ⟨V, rest, O⟩ := by
          simp [bfsLoop, hu]
        rw [hstep]
        obtain ⟨lq', inv'⟩ := bfsInv_skip inv hu
        exact ih _ lq' inv'
      · have hstep : bfsLoop g (fuel + 1) ⟨V, u :: rest, O⟩ =
            bfsLoop g fuel ⟨u :: V, rest ++ adj g u, O ++ [u]⟩ := by
          simp [bfsLoop, hu]
        rw [hstep]
        obtain ⟨lq', inv'⟩ := bfsInv_visit inv hu
        exact ih _ lq' inv'

/-- The visit order returned by `bfs` is pairwise sorted by shortest-path
distance. -/
theorem bfs_pairwise (graph : List (Nat × List Nat)) (start : Nat) :
    (bfs graph start).Pairwise (distOrderRel graph start) :=
  bfsLoop_order_pairwise (travFuel graph) ⟨[], [start], []⟩ [(start, 0)]
    (bfsInv_init graph start)

/-! ## Termination of the worklist loops -/

theorem adj_eq_nil_of_not_mem_keys {g : List (Nat × List Nat)} {u : Nat}
    (h : u ∉ keys g) : adj g u = [] := by
  induction g with
  | nil => rfl
  | cons p g ih =>
    have h1 : u ≠ p.1 ∧ u ∉ keys g := by
      constructor
      · intro he
        exact h (by simp [keys, he])
      · intro hm
        exact h (by simp [keys] at hm ⊢; exact Or.inr hm)
    have hbeq : (u == p.1) = false := by
      simp only [beq_eq_false_iff_ne]
      exact h1.1
    have hstep : adj (p :: g) u = adj g u := by
      simp [adj, List.lookup, hbeq]
    rw [hstep]
    exact ih h1.2

/-- Splitting off a freshly visited element from the unvisited sum. -/
theorem sum_filter_cons_visited {l : List Nat} (hnd : l.Nodup) (f : Nat → Nat)
    (u : Nat) (V : List Nat) (hu : u ∈ l) (huV : u ∉ V) :
    ((l.filter (fun k => k ∉ V)).map f).sum =
      f u + ((l.filter (fun k => k ∉ u :: V)).map f).sum := by
  induction l with
  | nil => cases hu
  | cons x xs ih =>
    have hnd' := List.nodup_cons.mp hnd
    rcases List.mem_cons.mp hu with rfl | hxs
    · have hfil1 : (u :: xs).filter (fun k => k ∉ V) =
          u :: xs.filter (fun k => k ∉ V) := by
        simp [List.filter_cons, huV]
      have hfil2 : (u :: xs).filter (fun k => k ∉ u :: V) =
          xs.filter (fun k => k ∉ u :: V) := by
        simp [List.filter_cons]
      have hcong : xs.filter (fun k => k ∉ u :: V) = xs.filter (fun k => k ∉ V) := by
        apply List.filter_congr
        intro x hx
        have hxu : x ≠ u := fun h => hnd'.1 (h ▸ hx)
        simp [hxu]
      rw [hfil1, hfil2, hcong]
      simp
    · have hxu : x ≠ u := fun h => hnd'.1 (h ▸ hxs)
      by_cases hxV : x ∈ V
      · have hfil1 : (x :: xs).filter (fun k => k ∉ V) =
            xs.filter (fun k => k ∉ V) := by
          simp [List.filter_cons, hxV]
        have hfil2 : (x :: xs).filter (fun k => k ∉ u :: V) =
            xs.filter (fun k => k ∉ u :: V) := by
          simp [List.filter_cons, hxV]
        rw [hfil1, hfil2]
        exact ih hnd'.2 hxs
      · have hfil1 : (x :: xs).filter (fun k => k ∉ V) =
            x :: xs.filter (fun k => k ∉ V) := by
          simp [List.filter_cons, hxV]
        have hxuV : x ∉ u :: V := by
          simp only [List.mem_cons, not_or]
          exact ⟨hxu, hxV⟩
        have hfil2 : (x :: xs).filter (fun k => k ∉ u :: V) =
            x :: xs.filter (fun k => k ∉ u :: V) := by
          simp [List.filter_cons, hxu, hxV]
        rw [hfil1, hfil2]
        have hrec := ih hnd'.2 hxs
        simp only [List.map_cons, List.sum_cons]
        omega

/-- The unvisited sum only shrinks when the filter becomes stricter. -/
theorem sum_filter_le {l : List Nat} (f : Nat → Nat) (V V' : List Nat)
    (h : ∀ x ∈ V, x ∈ V') :
    ((l.filter (fun k => k ∉ V')).map f).sum ≤
      ((l.filter (fun k => k ∉ V)).map f).sum := by
  induction l with
  | nil => simp
  | cons x xs ih =>
    by_cases hxV' : x ∈ V'
    · by_cases hxV : x ∈ V
      · simp only [List.filter_cons, hxV, hxV']
        simpa using ih
      · have h1 : (x :: xs).filter (fun k => k ∉ V') = xs.filter (fun k => k ∉ V') := by
          simp [List.filter_cons, hxV']
        have h2 : (x :: xs).filter (fun k => k ∉ V) = x :: xs.filter (fun k => k ∉ V) := by
          simp [List.filter_cons, hxV]
        rw [h1, h2]
        simp only [List.map_cons, List.sum_cons]
        omega
    · have hxV : x ∉ V := fun hm => hxV' (h x hm)
      have h1 : (x :: xs).filter (fun k => k ∉ V') = x :: xs.filter (fun k => k ∉ V') := by
        simp [List.filter_cons, hxV']
      have h2 : (x :: xs).filter (fun k => k ∉ V) = x :: xs.filter (fun k => k ∉ V) := by
        simp [List.filter_cons, hxV]
      rw [h1, h2]
      simp only [List.map_cons, List.sum_cons]
      omega

/-- Visiting `u` removes exactly its successor count from the unvisited sum. -/
theorem sum_unvisited_visit {g : List (Nat × List Nat)} {V : List Nat} {u : Nat}
    (hu : u ∉ V) :
    (adj g u).length +
        (((keys g).dedup.filter (fun k => k ∉ u :: V)).map
          (fun k => (adj g k).length)).sum =
      (((keys g).dedup.filter (fun k => k ∉ V)).map
        (fun k => (adj g k).length)).sum := by
  by_cases hk : u ∈ (keys g).dedup
  · exact (sum_filter_cons_visited ((keys g).nodup_dedup)
      (fun k => (adj g k).length) u V hk hu).symm
  · have hadj : adj g u = [] :=
      adj_eq_nil_of_not_mem_keys (fun h => hk (List.mem_dedup.mpr h))
    have hcong : (keys g).dedup.filter (fun k => k ∉ u :: V) =
        (keys g).dedup.filter (fun k => k ∉ V) := by
      apply List.filter_congr
      intro x hx
      have hxu : x ≠ u := fun h => hk (h ▸ hx)
      simp [hxu]
    rw [hadj, hcong]
    simp

theorem travMeasure_skip (g : List (Nat × List Nat)) (V rest : List Nat) (u : Nat) :
    travMeasure g V (u :: rest) = travMeasure g V rest + 1 := by
  simp [travMeasure]
  omega

/-- Visiting a node decreases the measure by exactly one, for any rearranged
worklist of the right length. -/
theorem travMeasure_visit {g : List (Nat × List Nat)} {V : List Nat} {u : Nat}
    (hu : u ∉ V) (rest l : List Nat)
    (hl : l.length = (adj g u).length + rest.length) :
    travMeasure g (u :: V) l + 1 = travMeasure g V (u :: rest) := by
  have hs := sum_unvisited_visit (g := g) (V := V) hu
  simp only [travMeasure, hl, List.length_cons]
  omega

/-- With the measure as fuel the `bfs` loop always drains its queue, exactly
like the Python `while queue:` loop. -/
theorem bfsLoop_queue_empties {g : List (Nat × List Nat)} :
    ∀ fuel (s : BfsState), travMeasure g s.visited s.queue ≤ fuel →
      (bfsLoop g fuel s).queue = [] := by
  intro fuel
  induction fuel with
  | zero =>
    intro s h
    have h2 : travMeasure g s.visited s.queue ≤ 0 := h
    unfold travMeasure at h2
    have hq : s.queue = [] := List.eq_nil_of_length_eq_zero (by omega)
    simpa [bfsLoop] using hq
  | succ fuel ih =>
    intro s h
    obtain ⟨V, Q, O⟩ := s
    cases Q with
    | nil => simp [bfsLoop]
    | cons u rest =>
      have h' : travMeasure g V (u :: rest) ≤ fuel + 1 := h
      by_cases hu : u ∈ V
      · have hstep : bfsLoop g (fuel + 1) ⟨V, u :: rest, O⟩ =
            bfsLoop g fuel ⟨V, rest, O⟩ := by
          simp [bfsLoop, hu]
        rw [hstep]
        apply ih
        show travMeasure g V rest ≤ fuel
        have hm := travMeasure_skip g V rest u
        omega
      · have hstep : bfsLoop g (fuel + 1) ⟨V, u :: rest, O⟩ =
            bfsLoop g fuel ⟨u :: V, rest ++ adj g u, O ++ [u]⟩ := by
          simp [bfsLoop, hu]
        rw [hstep]
        apply ih
        show travMeasure g (u :: V) (rest ++ adj g u) ≤ fuel
        have hm := travMeasure_visit (g := g) hu rest (rest ++ adj g u) (by simp; omega)
        omega

/-- With the measure as fuel the `dfs` loop always drains its stack. -/
theorem dfsLoop_stack_empties {g : List (Nat × List Nat)} :
    ∀ fuel (s : DfsState), travMeasure g s.visited s.stack ≤ fuel →
      (dfsLoop g fuel s).stack = [] := by
  intro fuel
  induction fuel with
  | zero =>
    intro s h
    have h2 : travMeasure g s.visited s.stack ≤ 0 := h
    unfold travMeasure at h2
    have hq : s.stack = [] := List.eq_nil_of_length_eq_zero (by omega)
    simpa [dfsLoop] using hq
  | succ fuel ih =>
    intro s h
    obtain ⟨V, Q, O⟩ := s
    cases Q with
    | nil => simp [dfsLoop]
    | cons u rest =>
      have h' : travMeasure g V (u :: rest) ≤ fuel + 1 := h
      by_cases hu : u ∈ V
      · have hstep : dfsLoop g (fuel + 1) ⟨V, u :: rest, O⟩ =
            dfsLoop g fuel ⟨V, rest, O⟩ := by
          simp [dfsLoop, hu]
        rw [hstep]
        apply ih
        show travMeasure g V rest ≤ fuel
        have hm := travMeasure_skip g V rest u
        omega
      · have hstep : dfsLoop g (fuel + 1) ⟨V, u :: rest, O⟩ =
            dfsLoop g fuel ⟨u :: V, adj g u ++ rest, O ++ [u]⟩ := by
          simp [dfsLoop, hu]
        rw [hstep]
        apply ih
        show travMeasure g (u :: V) (adj g u ++ rest) ≤ fuel
        have hm := travMeasure_visit (g := g) hu rest (adj g u ++ rest) (by simp)
        omega

/-! ## The iterative dfs equals the recursive depth-first traversal -/

theorem dfsLoop_stack_nil {g : List (Nat × List Nat)} {s : DfsState}
    (h : s.stack = []) : ∀ fuel, dfsLoop g fuel s = s := by
  intro fuel
  cases fuel with
  | zero => rfl
  | succ fuel =>
    obtain ⟨V, Q, O⟩ := s
    have h' : Q = [] := h
    subst h'
    simp [dfsLoop]

theorem dfsLoop_fuel_irrel {g : List (Nat × List Nat)} :
    ∀ f1 f2 (s : DfsState), travMeasure g s.visited s.stack ≤ f1 →
      travMeasure g s.visited s.stack ≤ f2 → dfsLoop g f1 s = dfsLoop g f2 s := by
  intro f1
  induction f1 with
  | zero =>
    intro f2 s h1 h2
    have h' : travMeasure g s.visited s.stack ≤ 0 := h1
    unfold travMeasure at h'
    have hq : s.stack = [] := List.eq_nil_of_length_eq_zero (by omega)
    rw [dfsLoop_stack_nil hq, dfsLoop_stack_nil hq]
  | succ f1 ih =>
    intro f2 s h1 h2
    obtain ⟨V, Q, O⟩ := s
    cases Q with
    | nil => rw [dfsLoop_stack_nil rfl, dfsLoop_stack_nil rfl]
    | cons u rest =>
      have h1' : travMeasure g V (u :: rest) ≤ f1 + 1 := h1
      have h2' : travMeasure g V (u :: rest) ≤ f2 := h2
      have hpos : 1 ≤ travMeasure g V (u :: rest) := by
        unfold travMeasure
        rw [List.length_cons]
        omega
      cases f2 with
      | zero => omega
      | succ f2 =>
        by_cases hu : u ∈ V
        · have e1 : dfsLoop g (f1 + 1) ⟨V, u :: rest, O⟩ =
              dfsLoop g f1 ⟨V, rest, O⟩ := by simp [dfsLoop, hu]
          have e2 : dfsLoop g (f2 + 1) ⟨V, u :: rest, O⟩ =
              dfsLoop g f2 ⟨V, rest, O⟩ := by simp [dfsLoop, hu]
          rw [e1, e2]
          have hm := travMeasure_skip g V rest u
          apply ih
          · show travMeasure g V rest ≤ f1
            omega
          · show travMeasure g V rest ≤ f2
            omega
        · have e1 : dfsLoop g (f1 + 1) ⟨V, u :: rest, O⟩ =
              dfsLoop g f1 ⟨u :: V, adj g u ++ rest, O ++ [u]⟩ := by simp [dfsLoop, hu]
          have e2 : dfsLoop g (f2 + 1) ⟨V, u :: rest, O⟩ =
              dfsLoop g f2 ⟨u :: V, adj g u ++ rest, O ++ [u]⟩ := by simp [dfsLoop, hu]
          rw [e1, e2]
          have hm := travMeasure_visit (g := g) hu rest (adj g u ++ rest) (by simp)
          apply ih
          · show travMeasure g (u :: V) (adj g u ++ rest) ≤ f1
            omega
          · show travMeasure g (u :: V) (adj g u ++ rest) ≤ f2
            omega

theorem dfsExec_nil (g : List (Nat × List Nat)) (V O : List Nat) :
    dfsExec g V [] O = ⟨V, [], O⟩ :=
  dfsLoop_stack_nil rfl _

theorem dfsExec_cons_mem {g : List (Nat × List Nat)} {V : List Nat} {u : Nat}
    (hu : u ∈ V) (rest O : List Nat) :
    dfsExec g V (u :: rest) O = dfsExec g V rest O := by
  unfold dfsExec
  rw [travMeasure_skip g V rest u]
  simp [dfsLoop, hu]

theorem dfsExec_cons_visit {g : List (Nat × List Nat)} {V : List Nat} {u : Nat}
    (hu : u ∉ V) (rest O : List Nat) :
    dfsExec g V (u :: rest) O = dfsExec g (u :: V) (adj g u ++ rest) (O ++ [u]) := by
  unfold dfsExec
  rw [← travMeasure_visit (g := g) hu rest (adj g u ++ rest) (by simp)]
  simp [dfsLoop, hu]

theorem dfsLoop_eq_dfsExec {g : List (Nat × List Nat)} {fuel : Nat}
    {V w O : List Nat} (h : travMeasure g V w ≤ fuel) :
    dfsLoop g fuel ⟨V, w, O⟩ = dfsExec g V w O :=
  dfsLoop_fuel_irrel fuel (travMeasure g V w) ⟨V, w, O⟩ h le_rfl

/-- Processing a concatenated worklist processes the first part completely
and then continues with the second from the resulting state: the whole
branch reachable from the top entries is finished before the rest of the
stack is touched. -/
theorem dfsExec_append {g : List (Nat × List Nat)} :
    ∀ n (V O s1 s2 : List Nat), travMeasure g V s1 ≤ n →
      dfsExec g V (s1 ++ s2) O =
        dfsExec g (dfsExec g V s1 O).visited s2 (dfsExec g V s1 O).order := by
  intro n
  induction n with
  | zero =>
    intro V O s1 s2 h
    have hq : s1 = [] := by
      unfold travMeasure at h
      exact List.eq_nil_of_length_eq_zero (by omega)
    subst hq
    simp [dfsExec_nil]
  | succ n ih =>
    intro V O s1 s2 h
    cases s1 with
    | nil => simp [dfsExec_nil]
    | cons x rest =>
      have h' : travMeasure g V (x :: rest) ≤ n + 1 := h
      by_cases hx : x ∈ V
      · have hm := travMeasure_skip g V rest x
        calc dfsExec g V ((x :: rest) ++ s2) O
            = dfsExec g V (rest ++ s2) O := dfsExec_cons_mem hx _ _
          _ = dfsExec g (dfsExec g V rest O).visited s2 (dfsExec g V rest O).order :=
              ih V O rest s2 (by omega)
          _ = dfsExec g (dfsExec g V (x :: rest) O).visited s2
                (dfsExec g V (x :: rest) O).order := by
              rw [dfsExec_cons_mem hx rest O]
      · have hm := travMeasure_visit (g := g) hx rest (adj g x ++ rest) (by simp)
        calc dfsExec g V ((x :: rest) ++ s2) O
            = dfsExec g (x :: V) (adj g x ++ (rest ++ s2)) (O ++ [x]) :=
              dfsExec_cons_visit hx _ _
          _ = dfsExec g (x :: V) ((adj g x ++ rest) ++ s2) (O ++ [x]) := by
              rw [List.append_assoc]
          _ = dfsExec g (dfsExec g (x :: V) (adj g x ++ rest) (O ++ [x])).visited s2
                (dfsExec g (x :: V) (adj g x ++ rest) (O ++ [x])).order :=
              ih (x :: V) (O ++ [x]) (adj g x ++ rest) s2 (by omega)
          _ = dfsExec g (dfsExec g V (x :: rest) O).visited s2
                (dfsExec g V (x :: rest) O).order := by
              rw [dfsExec_cons_visit hx rest O]

theorem dfsExec_visited_mono {g : List (Nat × List Nat)} :
    ∀ n (V w O : List Nat), travMeasure g V w ≤ n →
      ∀ x ∈ V, x ∈ (dfsExec g V w O).visited := by
  intro n
  induction n with
  | zero =>
    intro V w O h x hx
    have hq : w = [] := by
      unfold travMeasure at h
      exact List.eq_nil_of_length_eq_zero (by omega)
    subst hq
    rw [dfsExec_nil]
    exact hx
  | succ n ih =>
    intro V w O h x hx
    cases w with
    | nil =>
      rw [dfsExec_nil]
      exact hx
    | cons u rest =>
      have h' : travMeasure g V (u :: rest) ≤ n + 1 := h
      by_cases hu : u ∈ V
      · rw [dfsExec_cons_mem hu]
        have hm := travMeasure_skip g V rest u
        exact ih V rest O (by omega) x hx
      · rw [dfsExec_cons_visit hu]
        have hm := travMeasure_visit (g := g) hu rest (adj g u ++ rest) (by simp)
        exact ih (u :: V) (adj g u ++ rest) (O ++ [u]) (by omega) x
          (List.mem_cons_of_mem u hx)

theorem visitMeasure_pos (g : List (Nat × List Nat)) (V : List Nat) :
    1 ≤ visitMeasure g V := by
  unfold visitMeasure
  omega

theorem visitMeasure_mono {g : List (Nat × List Nat)} {V V' : List Nat}
    (h : ∀ x ∈ V, x ∈ V') : visitMeasure g V' ≤ visitMeasure g V := by
  unfold visitMeasure
  have := sum_filter_le (l := (keys g).dedup) (fun k => 1 + (adj g k).length) V V' h
  omega

theorem visitMeasure_visit {g : List (Nat × List Nat)} {V : List Nat} {u : Nat}
    (hu : u ∉ V) (hk : u ∈ keys g) :
    visitMeasure g V = 1 + (adj g u).length + visitMeasure g (u :: V) := by
  unfold visitMeasure
  have h2 := sum_filter_cons_visited ((keys g).nodup_dedup)
    (fun k => 1 + (adj g k).length) u V (List.mem_dedup.mpr hk) hu
  beta_reduce at h2
  omega

/-- The recursive reference traversal computes exactly the completed run of
the iterative `dfs` loop on the singleton worklist. -/
theorem dfsVisit_eq_dfsExec {g : List (Nat × List Nat)} :
    ∀ n (V O : List Nat) (u : Nat) (fuel : Nat),
      visitMeasure g V ≤ n → visitMeasure g V ≤ fuel →
      dfsVisit g fuel (V, O) u =
        ((dfsExec g V [u] O).visited, (dfsExec g V [u] O).order) := by
  intro n
  induction n using Nat.strong_induction_on with
  | _ n ih =>
    intro V O u fuel hn hf
    have hpos := visitMeasure_pos g V
    cases fuel with
    | zero => omega
    | succ f =>
      by_cases huV : u ∈ V
      · have e1 : dfsVisit g (f + 1) (V, O) u = (V, O) := by simp [dfsVisit, huV]
        rw [e1, dfsExec_cons_mem huV, dfsExec_nil]
      · by_cases hk : u ∈ keys g
        · have hvm := visitMeasure_visit (g := g) huV hk
          have e1 : dfsVisit g (f + 1) (V, O) u =
              (adj g u).foldl (dfsVisit g f) (u :: V, O ++ [u]) := by
            simp [dfsVisit, huV]
          rw [e1, dfsExec_cons_visit huV, List.append_nil]
          have hsub : ∀ (l : List Nat), ∀ S : List Nat × List Nat,
              visitMeasure g S.1 < n → visitMeasure g S.1 ≤ f →
              l.foldl (dfsVisit g f) S =
                ((dfsExec g S.1 l S.2).visited, (dfsExec g S.1 l S.2).order) := by
            intro l
            induction l with
            | nil =>
              intro S h1 h2
              simp [dfsExec_nil]
            | cons x xs ihl =>
              intro S h1 h2
              have hx := ih (visitMeasure g S.1) h1 S.1 S.2 x f le_rfl h2
              have hS : ((S.1, S.2) : List Nat × List Nat) = S := Prod.mk.eta
              rw [hS] at hx
              have hmonoV := dfsExec_visited_mono (travMeasure g S.1 [x]) S.1 [x] S.2 le_rfl
              have hmm : visitMeasure g (dfsExec g S.1 [x] S.2).visited ≤
                  visitMeasure g S.1 := visitMeasure_mono hmonoV
              have happ := dfsExec_append (travMeasure g S.1 [x]) S.1 S.2 [x] xs le_rfl
              calc List.foldl (dfsVisit g f) S (x :: xs)
                  = List.foldl (dfsVisit g f) (dfsVisit g f S x) xs := rfl
                _ = List.foldl (dfsVisit g f)
                      ((dfsExec g S.1 [x] S.2).visited, (dfsExec g S.1 [x] S.2).order)
                      xs := by rw [hx]
                _ = ((dfsExec g (dfsExec g S.1 [x] S.2).visited xs
                        (dfsExec g S.1 [x] S.2).order).visited,
                      (dfsExec g (dfsExec g S.1 [x] S.2).visited xs
                        (dfsExec g S.1 [x] S.2).order).order) :=
                    ihl ((dfsExec g S.1 [x] S.2).visited, (dfsExec g S.1 [x] S.2).order)
                      (by show visitMeasure g (dfsExec g S.1 [x] S.2).visited < n; omega)
                      (by show visitMeasure g (dfsExec g S.1 [x] S.2).visited ≤ f; omega)
                _ = ((dfsExec g S.1 (x :: xs) S.2).visited,
                      (dfsExec g S.1 (x :: xs) S.2).order) := by
                    rw [show (x :: xs : List Nat) = [x] ++ xs from rfl, happ]
          exact hsub (adj g u) (u :: V, O ++ [u])
            (by show visitMeasure g (u :: V) < n; omega)
            (by show visitMeasure g (u :: V) ≤ f; omega)
        · have hadj : adj g u = [] := adj_eq_nil_of_not_mem_keys hk
          have e1 : dfsVisit g (f + 1) (V, O) u = (u :: V, O ++ [u]) := by
            simp [dfsVisit, huV, hadj]
          rw [e1, dfsExec_cons_visit huV, hadj]
          simp [dfsExec_nil]

theorem dfs_eq_dfs_recursive (graph : List (Nat × List Nat)) (start : Nat) :
    dfs graph start = dfs_recursive graph start := by
  have hfilter : (keys graph).dedup.filter (fun k => k ∉ ([] : List Nat)) =
      (keys graph).dedup := by
    apply List.filter_eq_self.mpr
    intro a ha
    simp
  have hfuel : travMeasure graph [] [start] ≤ travFuel graph := by
    unfold travMeasure travFuel
    rw [hfilter]
    simp
  have h1 : dfs graph start = (dfsExec graph [] [start] []).order := by
    unfold dfs
    rw [dfsLoop_eq_dfsExec hfuel]
  have hmv : visitMeasure graph [] ≤ dfsVisitFuel graph := by
    unfold visitMeasure dfsVisitFuel
    rw [hfilter]
  have h2 := dfsVisit_eq_dfsExec (visitMeasure graph []) [] [] start
    (dfsVisitFuel graph) le_rfl hmv
  have h3 : dfs_recursive graph start = (dfsExec graph [] [start] []).order := by
    unfold dfs_recursive
    rw [h2]
  rw [h1, h3]

/-! ## The claims -/

/-- C1: `fib_iterative` and `fib_recursive_naive` both return the `n`-th
Fibonacci number: `0` at `n = 0`, `1` at `n = 1`, and for every `n ≥ 2` the
value at `n` equals the value at `n - 1` plus the value at `n - 2`. -/
theorem claim_C1_fib_recurrence :
    fib_iterative 0 = 0 ∧ fib_iterative 1 = 1 ∧
    (∀ n, 2 ≤ n → fib_iterative n = fib_iterative (n - 1) + fib_iterative (n - 2)) ∧
    fib_recursive_naive 0 = 0 ∧ fib_recursive_naive 1 = 1 ∧
    (∀ n, 2 ≤ n → fib_recursive_naive n =
      fib_recursive_naive (n - 1) + fib_recursive_naive (n - 2)) := by
  refine ⟨rfl, rfl, ?_, rfl, rfl, ?_⟩
  · intro n hn
    obtain ⟨m, rfl⟩ : ∃ m, n = m + 2 := ⟨n - 2, by omega⟩
    simp only [fib_iterative_eq_naive]
    have h1 : m + 2 - 1 = m + 1 := by omega
    have h2 : m + 2 - 2 = m := by omega
    rw [h1, h2, fib_recursive_naive_add_two]
  · intro n hn
    obtain ⟨m, rfl⟩ : ∃ m, n = m + 2 := ⟨n - 2, by omega⟩
    have h1 : m + 2 - 1 = m + 1 := by omega
    have h2 : m + 2 - 2 = m := by omega
    rw [h1, h2, fib_recursive_naive_add_two]

/-- Witness for C1 at `n = 7`. -/
theorem claim_C1_witness :
    2 ≤ 7 ∧ fib_iterative 7 = fib_iterative 6 + fib_iterative 5 ∧
      fib_recursive_naive 7 = fib_recursive_naive 6 + fib_recursive_naive 5 := by
  refine ⟨by decide, ?_, ?_⟩
  · have h := claim_C1_fib_recurrence.2.2.1 7 (by decide)
    simpa using h
  · have h := claim_C1_fib_recurrence.2.2.2.2.2 7 (by decide)
    simpa using h

/-- C2: pushing a sequence of items in order onto an initially empty LIFO
stack (the Python list stack of `demo_basic_operations` /
`stack_hello_simple`, or the custom `Stack` class) and then popping until
empty yields exactly the reverse of the insertion sequence. -/
theorem claim_C2_lifo_reverse (α : Type) (xs : List α) :
    listPopAll (listPushAll [] xs) = xs.reverse ∧
      stackPopAll (Stack.pushAll ⟨[]⟩ xs) = xs.reverse := by
  constructor
  · rw [listPushAll_eq_append, listPopAll_eq_reverse]
    simp
  · rw [stackPopAll_eq_reverse, Stack.pushAll_items]
    simp

/-- C3: appending a sequence of items in order to an initially empty FIFO
queue (`deque.append` in `demo_basic_operations`) and removing with
`popleft` until empty yields exactly the insertion sequence. -/
theorem claim_C3_fifo_order (α : Type) (xs : List α) :
    dequePopleftAll (dequeAppendAll [] xs) = xs := by
  rw [dequeAppendAll_eq_append, dequePopleftAll_eq_self]
  simp

/-- C4: all the Fibonacci strategies compute the same function:
`fib_memoized`, `fib_counted` and the `n`-th value yielded by
`fib_generator()` each equal `fib_iterative n`. -/
theorem claim_C4_strategies_agree (n : Nat) :
    fib_memoized n = fib_iterative n ∧ fib_counted n = fib_iterative n ∧
      fib_generator_nth n = fib_iterative n := by
  refine ⟨?_, ?_, ?_⟩
  · rw [fib_memoized_eq_naive, fib_iterative_eq_naive]
  · rw [fib_counted_eq_naive, fib_iterative_eq_naive]
  · rw [fib_generator_nth_eq_naive, fib_iterative_eq_naive]

/-- C5: for every adjacency mapping whose listed successors are all keys and
every start key, the visit order returned by `bfs` is non-decreasing in
shortest-path distance from the start: if `u` appears before `v`, the
distance of `u` is at most the distance of `v`. -/
theorem claim_C5_bfs_nondecreasing_distance
    (graph : List (Nat × List Nat)) (start : Nat)
    (_hclosed : ∀ p ∈ graph, ∀ v ∈ p.2, v ∈ keys graph)
    (_hstart : start ∈ keys graph)
    (u v du dv i j : Nat) (hij : i < j)
    (hu : (bfs graph start)[i]? = some u) (hv : (bfs graph start)[j]? = some v)
    (hdu : hasDist graph start u du) (hdv : hasDist graph start v dv) :
    du ≤ dv := by
  have hpw := bfs_pairwise graph start
  rw [List.pairwise_iff_getElem] at hpw
  obtain ⟨hilt, hieq⟩ := List.getElem?_eq_some.mp hu
  obtain ⟨hjlt, hjeq⟩ := List.getElem?_eq_some.mp hv
  have hrel := hpw i j hilt hjlt hij
  rw [hieq, hjeq] at hrel
  exact hrel du dv hdu hdv

/-- Witness for C5 on the demo graph of `stack_vs_queue.py`
(`A..F` coded as `0..5`): node `1` (distance 1) is visited before node `5`
(distance 2). -/
theorem claim_C5_witness :
    (bfs [(0, [1, 2]), (1, [3, 4]), (2, [5]), (3, []), (4, []), (5, [])] 0)[1]? =
        some 1 ∧
    (bfs [(0, [1, 2]), (1, [3, 4]), (2, [5]), (3, []), (4, []), (5, [])] 0)[5]? =
        some 5 ∧
    hasDist [(0, [1, 2]), (1, [3, 4]), (2, [5]), (3, []), (4, []), (5, [])] 0 1 1 ∧
    hasDist [(0, [1, 2]), (1, [3, 4]), (2, [5]), (3, []), (4, []), (5, [])] 0 5 2 ∧
    (1 : Nat) ≤ 2 :=
  ⟨by decide, by decide, by decide, by decide,
    claim_C5_bfs_nondecreasing_distance
      [(0, [1, 2]), (1, [3, 4]), (2, [5]), (3, []), (4, []), (5, [])] 0
      (by decide) (by decide) 1 5 1 2 1 5 (by decide) (by decide) (by decide)
      (by decide) (by decide)⟩

/-- C6: `dfs` produces a depth-first visit order: it coincides with the
recursive reference traversal `dfs_recursive`, which upon visiting a node
fully explores the branch through each unvisited neighbor (in listed order)
before moving to the next neighbor. -/
theorem claim_C6_dfs_depth_first
    (graph : List (Nat × List Nat)) (start : Nat)
    (_hclosed : ∀ p ∈ graph, ∀ v ∈ p.2, v ∈ keys graph)
    (_hstart : start ∈ keys graph) :
    dfs graph start = dfs_recursive graph start :=
  dfs_eq_dfs_recursive graph start

/-- Witness for C6 on the demo graph (`A..F` coded as `0..5`): the common
order is `A B D E C F`. -/
theorem claim_C6_witness :
    dfs [(0, [1, 2]), (1, [3, 4]), (2, [5]), (3, []), (4, []), (5, [])] 0 =
        dfs_recursive [(0, [1, 2]), (1, [3, 4]), (2, [5]), (3, []), (4, []), (5, [])] 0 ∧
    dfs [(0, [1, 2]), (1, [3, 4]), (2, [5]), (3, []), (4, []), (5, [])] 0 =
        [0, 1, 3, 4, 2, 5] :=
  ⟨claim_C6_dfs_depth_first
      [(0, [1, 2]), (1, [3, 4]), (2, [5]), (3, []), (4, []), (5, [])] 0
      (by decide) (by decide),
    by decide⟩

/-- C7: `infinite_recursion` never returns normally from any starting depth —
it always ends in the language's recursion-depth error — and
`demonstrate_recursion_limit` catches that error, so no exception propagates
out of it. -/
theorem claim_C7_recursion_error :
    (∀ remaining depth, infinite_recursion remaining depth =
        Except.error RecursionError.limitExceeded) ∧
    (∀ remaining, demonstrate_recursion_limit remaining = Except.ok ()) := by
  refine ⟨infinite_recursion_never_returns, ?_⟩
  intro remaining
  unfold demonstrate_recursion_limit
  rw [infinite_recursion_never_returns]

/-- C8 is false on the code: `fib_counted`'s call counter and
`fib_memoized`'s cache survive the call.  Concretely, `fib_counted(5)`
leaves the counter at `15`; a second identical call observes that state and
leaves `30 ≠ 15`; and `fib_memoized(5)` leaves a non-empty cache behind. -/
theorem claim_C8_counterexample :
    (fibCountedAux 5 0).2 = 15 ∧
    (fibCountedAux 5 (fibCountedAux 5 0).2).2 = 30 ∧
    (fibCountedAux 5 (fibCountedAux 5 0).2).2 ≠ (fibCountedAux 5 0).2 ∧
    (fibMemoAux 5 0 []).2 ≠ ([] : FibCache) := by
  refine ⟨by decide, by decide, by decide, by decide⟩

/-- C8 amended: `fib_memoized`'s cache and `fib_counted`'s counter do persist
across calls, but the *returned values* are independent of earlier calls:
with any correct cache (as every cache built by earlier calls is) and any
counter value, both functions return the same results. -/
theorem claim_C8_amended_values_independent (n depth c1 c2 : Nat)
    (cache1 cache2 : FibCache) (h1 : goodCache cache1) (h2 : goodCache cache2) :
    (fibCountedAux n c1).1 = (fibCountedAux n c2).1 ∧
    (fibMemoAux n depth cache1).1 = (fibMemoAux n depth cache2).1 := by
  constructor
  · rw [fibCountedAux_fst, fibCountedAux_fst]
  · rw [(fibMemoAux_correct n depth cache1 h1).1,
      (fibMemoAux_correct n depth cache2 h2).1]

/-- Witness for the amended C8: a fresh call and a call after earlier
invocations return the same values. -/
theorem claim_C8_amended_witness :
    (fibCountedAux 5 0).1 = (fibCountedAux 5 15).1 ∧
    (fibMemoAux 5 0 []).1 = (fibMemoAux 5 0 (fibMemoAux 3 0 []).2).1 :=
  have hg : goodCache (fibMemoAux 3 0 []).2 :=
    (fibMemoAux_correct 3 0 [] goodCache_nil).2
  ⟨(claim_C8_amended_values_independent 5 0 0 15 [] (fibMemoAux 3 0 []).2
      goodCache_nil hg).1,
    (claim_C8_amended_values_independent 5 0 0 15 [] (fibMemoAux 3 0 []).2
      goodCache_nil hg).2⟩

/-- C10: on the custom `Stack` class, `pop` and `peek` are total (they never
raise): on the empty stack both return `None` (and `pop` leaves the stack
empty); after pushing `x` onto any stack `s`, `pop` returns `x` and restores
`s`, and `peek` returns `x` (without modifying the stack, as it only reads
`items[-1]`). -/
theorem claim_C10_stack_pop_peek (α : Type) (s : Stack α) (x : α) :
    (Stack.pop (⟨[]⟩ : Stack α)) = (none, (⟨[]⟩ : Stack α)) ∧
    (Stack.peek (⟨[]⟩ : Stack α)) = none ∧
    (s.push x).pop = (some x, s) ∧
    (s.push x).peek = some x := by
  have hne : (⟨s.items ++ [x]⟩ : Stack α).isEmpty = false := by
    simp [Stack.isEmpty]
  refine ⟨rfl, rfl, ?_, ?_⟩
  · show Stack.pop ⟨s.items ++ [x]⟩ = (some x, s)
    simp [Stack.pop, hne, List.getLast?_concat, List.dropLast_concat]
  · show Stack.peek ⟨s.items ++ [x]⟩ = some x
    simp [Stack.peek, hne, List.getLast?_concat]

end TuringStack
